import Mathlib

/-!
Verification development for the `app-migrations` history/baseline subsystem.

Rust strings are embedded as `List Char` (`Str`); file contents are embedded
as lists of lines (each line a `Str`, stored without its terminating newline).
The migrations directory is embedded as a record of the three files the
subsystem touches.  Timestamp parsing/formatting (the external `chrono`
library) is kept abstract as a `Chrono` structure: a type of timestamps, a
parse function that can fail, and an RFC3339 renderer.
-/

set_option maxRecDepth 8192

deriving instance DecidableEq for Except

namespace AppMigrations

/-- Rust `&str` / `String`, embedded as a list of characters. -/
abbrev Str := List Char

/-- Leading-whitespace trim, as in Rust `str::trim_start`. -/
def ltrim (s : Str) : Str := s.dropWhile Char.isWhitespace

/-- Trailing-whitespace trim, as in Rust `str::trim_end`. -/
def rtrim (s : Str) : Str := (s.reverse.dropWhile Char.isWhitespace).reverse

/-- Rust `str::trim`. -/
def trim (s : Str) : Str := rtrim (ltrim s)

/-- Rust `str::strip_prefix`: `some` of the remainder when `p` is a prefix. -/
def stripPre (p s : Str) : Option Str :=
  if p.isPrefixOf s then some (s.drop p.length) else none

/-- Rust `str::splitn(n, c)`: split on `c` into at most `n` pieces, the last
piece keeping the rest of the string verbatim. -/
def splitn : Nat → Char → Str → List Str
  | 0, _, _ => []
  | 1, _, s => [s]
  | n + 2, c, s =>
    match s.findIdx? (fun a => a == c) with
    | none => [s]
    | some i => s.take i :: splitn (n + 1) c (s.drop (i + 1))

/-- Rust lexicographic strict comparison `s1 < s2` on strings
(byte order on UTF-8 agrees with code-point order). -/
def strLt : Str → Str → Bool
  | [], [] => false
  | [], _ :: _ => true
  | _ :: _, [] => false
  | a :: as, b :: bs => if a = b then strLt as bs else decide (a < b)

/-- Rust lexicographic `s1 <= s2` on strings. -/
def strLe : Str → Str → Bool
  | [], _ => true
  | _ :: _, [] => false
  | a :: as, b :: bs => if a = b then strLe as bs else decide (a < b)

/-- Rust `str::replace('\n', " ")`: each newline becomes one space. -/
def flattenNl (s : Str) : Str :=
  s.map (fun c => if c = '\n' then ' ' else c)

/-- A filesystem path, as a list of components. -/
abbrev FilePath := List Str

/-- One discoverable migration (from `loader.rs` / `lib.rs`). -/
structure Migration where
  id : Str
  version : Str
  file_path : FilePath
deriving DecidableEq, Repr

/-- One applied-migration record. -/
structure AppliedMigration (Ts : Type) where
  id : Str
  applied_at : Ts
deriving DecidableEq, Repr

/-- A baseline assertion (from `state.rs`). -/
structure Baseline (Ts : Type) where
  version : Str
  created : Ts
  summary : Option Str
deriving DecidableEq, Repr

/-- State read from the history file (from `state.rs`). -/
structure HistoryState (Ts : Type) where
  applied : List (AppliedMigration Ts)
  baseline : Option (Baseline Ts)
deriving DecidableEq, Repr

/-- Abstract model of the `chrono` timestamp library: a timestamp type, a
fallible RFC3339 parse, and an RFC3339 renderer. -/
structure Chrono where
  Ts : Type
  parse : Str → Option Ts
  toRfc3339 : Ts → Str

/-- The migrations directory: contents of the three files the history
subsystem touches (`history`, legacy `.history`, legacy `.baseline`).
`none` means the file does not exist; contents are lists of lines. -/
structure Dir where
  history : Option (List Str)
  legacy_history : Option (List Str)
  legacy_baseline : Option (List Str)
deriving DecidableEq, Repr

/-- An item deleted during baseline cleanup (from `baseline.rs`). -/
structure DeletedItem where
  path : FilePath
  is_directory : Bool
deriving DecidableEq, Repr

/-- Validation errors raised by `validate_baseline` (the three `bail!` sites). -/
inductive BaselineError where
  | noMigration (version : Str)
  | moveBackward (existing version : Str)
  | notApplied (id : Str)
deriving DecidableEq, Repr

/-- Read errors raised while decoding history files (the
`parse_from_rfc3339` failure sites). -/
inductive ReadErr where
  | badBaselineTs (s : Str)
  | badHistoryTs (s : Str)
  | badLegacyTs (s : Str)
deriving DecidableEq, Repr

/-- Rust `version_lte` from `baseline.rs`: `v1 <= v2` lexicographically. -/
def version_lte (v1 v2 : Str) : Bool := strLe v1 v2

/-- The completeness loop of `validate_baseline`: every available migration at
or before `version` must appear in `applied` by id; the first offender is
reported. -/
def validate_applied {Ts : Type} (version : Str) (available : List Migration)
    (applied : List (AppliedMigration Ts)) : Except BaselineError Unit :=
  match available.find? (fun m =>
      version_lte m.version version && !(applied.any (fun a => a.id == m.id))) with
  | some m => .error (.notApplied m.id)
  | none => .ok ()

/-- Rust `validate_baseline` from `baseline.rs`. -/
def validate_baseline {Ts : Type} (version : Str) (available : List Migration)
    (applied : List (AppliedMigration Ts)) (existing_baseline : Option (Baseline Ts)) :
    Except BaselineError Unit :=
  if (available.find? (fun m => m.version == version)).isNone then
    .error (.noMigration version)
  else
    match existing_baseline with
    | some existing =>
      if strLt version existing.version then
        .error (.moveBackward existing.version version)
      else
        validate_applied version available applied
    | none => validate_applied version available applied

/-- Rust `get_pending` from `state.rs`: available migrations not applied by id and
not covered by a baseline. -/
def get_pending {Ts : Type} (available : List Migration) (state : HistoryState Ts) :
    List Migration :=
  available.filter (fun m =>
    !(state.applied.any (fun a => a.id == m.id)) &&
    (match state.baseline with
     | some b => !(strLe m.version b.version)
     | none => true))

/-- The `"baseline: "` record marker in the history file. -/
def blMarker : Str := "baseline: ".toList

/-- Decoding of one history line inside the `read_history` loop of
`state.rs`: trims, skips blanks, decodes a baseline record
(`baseline: version timestamp [summary]`) or an applied record
(`id timestamp`), and silently skips anything else. -/
def procLine (C : Chrono) (st : HistoryState C.Ts) (line0 : Str) :
    Except ReadErr (HistoryState C.Ts) :=
  let line := trim line0
  if line.isEmpty then .ok st
  else
    match stripPre blMarker line with
    | some rest =>
      match splitn 3 ' ' rest with
      | version :: tss :: restParts =>
        match C.parse tss with
        | none => .error (.badBaselineTs tss)
        | some created =>
          let summary := match restParts with
            | [s] => some s
            | _ => none
          .ok { st with baseline := some ⟨version, created, summary⟩ }
      | _ => .ok st
    | none =>
      match splitn 2 ' ' line with
      | [id, tss] =>
        match C.parse tss with
        | none => .error (.badHistoryTs tss)
        | some t => .ok { st with applied := st.applied ++ [⟨id, t⟩] }
      | _ => .ok st

/-- The parsing loop of `read_history` over the lines of the `history` file. -/
def parseHistory (C : Chrono) (lines : List Str) : Except ReadErr (HistoryState C.Ts) :=
  lines.foldlM (procLine C) ⟨[], none⟩

/-- Accumulator of the `read_legacy_baseline` line loop in `state.rs`. -/
structure LegacyAcc (Ts : Type) where
  version : Option Str
  created : Option Ts
  summary : Option Str
  in_summary : Bool
  summary_lines : List Str
deriving DecidableEq, Repr

/-- The `key: value` decoding of one legacy `.baseline` line (the else-if
chain at the bottom of the loop in `read_legacy_baseline`). -/
def legacyKeyLine (C : Chrono) (st : LegacyAcc C.Ts) (line : Str) :
    Except ReadErr (LegacyAcc C.Ts) :=
  match stripPre "version:".toList line with
  | some stripped => .ok { st with version := some (trim stripped) }
  | none =>
    match stripPre "created:".toList line with
    | some stripped =>
      let tss := trim stripped
      match C.parse tss with
      | none => .error (.badLegacyTs tss)
      | some t => .ok { st with created := some t }
    | none =>
      match stripPre "summary:".toList line with
      | some stripped =>
        let rest := trim stripped
        if rest = ['|'] then .ok { st with in_summary := true }
        else if rest.isEmpty then .ok st
        else .ok { st with summary := some rest }
      | none => .ok st

/-- One iteration of the `read_legacy_baseline` loop, including the
`summary: |` literal-block state machine. -/
def legacyLineStep (C : Chrono) (st : LegacyAcc C.Ts) (line : Str) :
    Except ReadErr (LegacyAcc C.Ts) :=
  if st.in_summary then
    match stripPre "  ".toList line with
    | some stripped => .ok { st with summary_lines := st.summary_lines ++ [stripped] }
    | none =>
      if line.head? = some ' ' || line.isEmpty then
        .ok { st with summary_lines :=
          st.summary_lines ++ [if line.isEmpty then [] else ltrim line] }
      else
        legacyKeyLine C
          { st with in_summary := false,
                    summary := some (rtrim (List.intercalate ['\n'] st.summary_lines)),
                    summary_lines := [] }
          line
  else legacyKeyLine C st line

/-- Rust `read_legacy_baseline` from `state.rs`: decode the legacy `.baseline`
file; yields `none` when version or created is missing. -/
def read_legacy_baseline (C : Chrono) (lines : List Str) :
    Except ReadErr (Option (Baseline C.Ts)) := do
  let st ← lines.foldlM (legacyLineStep C) ⟨none, none, none, false, []⟩
  let summary := if st.in_summary && !st.summary_lines.isEmpty then
      some (rtrim (List.intercalate ['\n'] st.summary_lines))
    else st.summary
  match st.version, st.created with
  | some v, some c => .ok (some ⟨v, c, summary⟩)
  | _, _ => .ok none

/-- Rust `format_baseline_line` from `state.rs`: serialize a baseline as one
history line, flattening newlines in the summary to spaces. -/
def format_baseline_line (C : Chrono) (b : Baseline C.Ts) : Str :=
  match b.summary with
  | some s => blMarker ++ b.version ++ [' '] ++ C.toRfc3339 b.created ++ [' '] ++ flattenNl s
  | none => blMarker ++ b.version ++ [' '] ++ C.toRfc3339 b.created

/-- Rust `append_baseline` from `state.rs`: append one baseline record to the
history file, creating it when absent. -/
def append_baseline (C : Chrono) (dir : Dir) (b : Baseline C.Ts) : Dir :=
  { dir with history := some (dir.history.getD [] ++ [format_baseline_line C b]) }

/-- Rust `migrate_legacy_files` from `state.rs`: concatenate the legacy applied
log with a synthesized baseline record, write it as the new history file when
nonempty, and delete both legacy files. -/
def migrate_legacy_files (C : Chrono) (dir : Dir) : Except ReadErr Dir := do
  let content := dir.legacy_history.getD []
  let content ← match dir.legacy_baseline with
    | some lbLines => do
      match ← read_legacy_baseline C lbLines with
      | some b => pure (content ++ [format_baseline_line C b])
      | none => pure content
    | none => pure content
  let dir := if content.isEmpty then dir else { dir with history := some content }
  .ok { dir with legacy_history := none, legacy_baseline := none }

/-- Rust `read_history` from `state.rs`: run the legacy upgrade when needed, parse
the history log, and pick up a residual legacy `.baseline` file when the log
carried no baseline record. -/
def read_history (C : Chrono) (dir : Dir) : Except ReadErr (HistoryState C.Ts × Dir) := do
  let dir ← if dir.history.isNone && dir.legacy_history.isSome then
      migrate_legacy_files C dir
    else pure dir
  match dir.history with
  | none => .ok (⟨[], none⟩, dir)
  | some lines => do
    let st ← parseHistory C lines
    match st.baseline, dir.legacy_baseline with
    | none, some lbLines => do
      match ← read_legacy_baseline C lbLines with
      | some b =>
        let dir := { append_baseline C dir b with legacy_baseline := none }
        .ok ({ st with baseline := some b }, dir)
      | none => .ok (st, dir)
    | _, _ => .ok (st, dir)

/-- The filesystem as seen by baseline cleanup: the sets of existing file
paths and directory paths. -/
structure FS where
  files : List FilePath
  dirs : List FilePath
deriving DecidableEq, Repr

/-- Embeds `fs::remove_file`. -/
def removeFile (fs : FS) (p : FilePath) : FS :=
  { fs with files := fs.files.filter (fun q => !(q == p)) }

/-- Embeds `fs::remove_dir_all`: removes the directory and everything under it. -/
def removeDirAll (fs : FS) (d : FilePath) : FS :=
  { files := fs.files.filter (fun q => !(d.isPrefixOf q)),
    dirs := fs.dirs.filter (fun q => !(d.isPrefixOf q)) }

/-- Embeds `Path::parent`: `none` only for the empty path. -/
def parentDir : FilePath → Option FilePath
  | [] => none
  | ps => some ps.dropLast

/-- The script-file half of the loop body in `delete_baselined_migrations`:
remove the migration file when present and record it. -/
def deleteFileStep (m : Migration) (fs : FS) : FS × List DeletedItem :=
  if fs.files.contains m.file_path then
    (removeFile fs m.file_path, [⟨m.file_path, false⟩])
  else (fs, [])

/-- The per-migration body of the loop in `delete_baselined_migrations`:
remove the script file when present, then the sibling asset directory named
as the migration id when it exists and is a directory. -/
def deleteOne (baseline_version : Str) (m : Migration) (fs : FS) : FS × List DeletedItem :=
  if version_lte m.version baseline_version then
    let step1 : FS × List DeletedItem := deleteFileStep m fs
    match parentDir m.file_path with
    | some parent =>
      let asset := parent ++ [m.id]
      if (step1.1.files.contains asset || step1.1.dirs.contains asset) &&
          step1.1.dirs.contains asset then
        (removeDirAll step1.1 asset, step1.2 ++ [⟨asset, true⟩])
      else step1
    | none => step1
  else (fs, [])

/-- Rust `delete_baselined_migrations` from `baseline.rs`, acting on the embedded
filesystem; returns the new filesystem and the deleted items in discovery
order. -/
def delete_baselined_migrations (baseline_version : Str) :
    List Migration → FS → FS × List DeletedItem
  | [], fs => (fs, [])
  | m :: rest, fs =>
    let step := deleteOne baseline_version m fs
    let stepRest := delete_baselined_migrations baseline_version rest step.1
    (stepRest.1, step.2 ++ stepRest.2)

def isNotAppliedErr : Except BaselineError Unit → Bool
  | .error (.notApplied _) => true
  | _ => false

/-- Concrete migrations used in counterexamples and witnesses. -/
def migA : Migration := ⟨['a'], ['1'], []⟩

def migB : Migration := ⟨['b'], ['2'], []⟩

def tsField (line0 : Str) : Option Str :=
  let line := trim line0
  if line.isEmpty then none
  else
    match stripPre blMarker line with
    | some rest =>
      match splitn 3 ' ' rest with
      | _ :: tss :: _ => some tss
      | _ => none
    | none =>
      match splitn 2 ' ' line with
      | [_, tss] => some tss
      | _ => none

/-- A concrete timestamp model used in witnesses: the only string that
parses is `"T"`, and every timestamp renders as `"T"`. -/
abbrev WitChrono : Chrono :=
  ⟨Unit, fun s => if s = ['T'] then some () else none, fun _ => ['T']⟩

/-- Concrete cleanup scenario for the C6 witness. -/
def migC6a : Migration :=
  ⟨"1f700-first".toList, "1f700".toList, [['d'], "1f700-first.sh".toList]⟩

def migC6b : Migration :=
  ⟨"1f710-second".toList, "1f710".toList, [['d'], "1f710-second.sh".toList]⟩

def fsC6 : FS :=
  ⟨[migC6a.file_path, migC6b.file_path, [['d'], "1f700-first".toList, "c.json".toList]],
   [[['d']], [['d'], "1f700-first".toList]]⟩

/-- The baseline as it reads back from its own serialized history line: the
summary is newline-flattened. -/
def readBack (C : Chrono) (b : Baseline C.Ts) : Baseline C.Ts :=
  ⟨b.version, b.created, b.summary.map flattenNl⟩

/-- Side conditions under which a serialized baseline record reads back
faithfully: the timestamp rendering round-trips through parse, contains no
space, is nonempty and carries no trailing whitespace; the version contains
no space; a present summary stays nonempty and without trailing whitespace
once newline-flattened. -/
def writableBaseline (C : Chrono) (b : Baseline C.Ts) : Prop :=
  C.parse (C.toRfc3339 b.created) = some b.created ∧
  (∀ ch ∈ C.toRfc3339 b.created, ch ≠ ' ') ∧
  C.toRfc3339 b.created ≠ [] ∧
  rtrim (C.toRfc3339 b.created) = C.toRfc3339 b.created ∧
  (∀ ch ∈ b.version, ch ≠ ' ') ∧
  (match b.summary with
   | none => True
   | some s => flattenNl s ≠ [] ∧ rtrim (flattenNl s) = flattenNl s)

/-- Concrete legacy upgrade scenario for the C7 witness: two applied
records, and a legacy baseline file with a two-line literal summary. -/
def legacyHistC7 : List Str := ["m1 T".toList, "m2 T".toList]

def legacyBaseC7 : List Str :=
  ["version: 1f710".toList, "created: T".toList, "summary: |".toList,
   "  line1".toList, "  line2".toList]

/-- A directory whose current log already carries a baseline record while a
legacy `.baseline` file is still present. -/
def dirC8 : Dir :=
  ⟨some ["baseline: x T".toList], none,
   some ["version: v".toList, "created: T".toList]⟩

/-! ### Helper lemmas about the embedded string operations -/

theorem stripPre_append (p s : Str) : stripPre p (p ++ s) = some s := by
  have hp : p.isPrefixOf (p ++ s) = true :=
    List.isPrefixOf_iff_prefix.mpr (List.prefix_append p s)
  simp [stripPre, hp]

theorem stripPre_eq_some {p s r : Str} : stripPre p s = some r ↔ s = p ++ r := by
  constructor
  · intro h
    unfold stripPre at h
    by_cases hp : p.isPrefixOf s = true
    · simp [hp] at h
      rcases List.isPrefixOf_iff_prefix.mp hp with ⟨t, ht⟩
      subst ht
      rw [List.drop_left] at h
      rw [h]
    · simp [hp] at h
  · intro h
    subst h
    exact stripPre_append p r

theorem strLt_irrefl (s : Str) : strLt s s = false := by
  induction s with
  | nil => rfl
  | cons a as ih => simp [strLt, ih]

theorem splitn_no_sep {c : Char} {s : Str} (h : ∀ x ∈ s, x ≠ c) :
    ∀ n : Nat, splitn (n + 1) c s = [s] := by
  intro n
  match n with
  | 0 => rfl
  | n + 1 =>
    have hfind : s.findIdx? (fun a => a == c) = none := by
      rw [List.findIdx?_eq_none_iff]
      intro x hx
      simp [h x hx]
    simp [splitn, hfind]

theorem findIdx?_append_sep {c : Char} {v rest : Str} (h : ∀ x ∈ v, x ≠ c) :
    (v ++ c :: rest).findIdx? (fun a => a == c) = some v.length := by
  induction v with
  | nil => simp [List.findIdx?_cons]
  | cons a as ih =>
    have ha : (a == c) = false := by
      simp [h a (List.mem_cons_self a as)]
    have ih' := ih (fun x hx => h x (List.mem_cons_of_mem a hx))
    simp only [List.cons_append, List.findIdx?_cons, ha, if_false]
    rw [List.findIdx?_succ, ih']
    rfl

theorem splitn_append_sep {c : Char} {v rest : Str} (h : ∀ x ∈ v, x ≠ c) (n : Nat) :
    splitn (n + 2) c (v ++ c :: rest) = v :: splitn (n + 1) c rest := by
  have hfind := @findIdx?_append_sep c v rest h
  have htake : (v ++ c :: rest).take v.length = v := List.take_left v (c :: rest)
  have hdrop : (v ++ c :: rest).drop (v.length + 1) = rest := by
    have h1 : v ++ c :: rest = (v ++ [c]) ++ rest := by simp
    have h2 : (v ++ [c]).length = v.length + 1 := by simp
    rw [h1, ← h2, List.drop_left]
  simp [splitn, hfind, htake, hdrop]

theorem ltrim_cons {a : Char} {s : Str} (h : a.isWhitespace = false) :
    ltrim (a :: s) = a :: s := by
  simp [ltrim, List.dropWhile_cons, h]

theorem rtrim_head_not_ws {lp : Str} (h1 : lp ≠ []) (h2 : rtrim lp = lp) :
    ∃ a t, lp.reverse = a :: t ∧ a.isWhitespace = false := by
  have hrev : lp.reverse ≠ [] := by simpa using h1
  rcases List.exists_cons_of_ne_nil hrev with ⟨a, t, hat⟩
  refine ⟨a, t, hat, ?_⟩
  by_contra hws
  have hws' : a.isWhitespace = true := by
    cases hb : a.isWhitespace
    · exact absurd hb hws
    · rfl
  have hdw : lp.reverse.dropWhile Char.isWhitespace = lp.reverse := by
    have := congrArg List.reverse h2
    simpa [rtrim] using this
  rw [hat] at hdw
  rw [List.dropWhile_cons, hws'] at hdw
  simp only [if_true] at hdw
  have hlen : (t.dropWhile Char.isWhitespace).length ≤ t.length :=
    (List.dropWhile_sublist _).length_le
  rw [hdw, List.length_cons] at hlen
  omega

theorem rtrim_append {xs lp : Str} (h1 : lp ≠ []) (h2 : rtrim lp = lp) :
    rtrim (xs ++ lp) = xs ++ lp := by
  rcases rtrim_head_not_ws h1 h2 with ⟨a, t, hat, hws⟩
  unfold rtrim
  rw [List.reverse_append, hat, List.cons_append, List.dropWhile_cons, hws]
  simp only [Bool.false_eq_true, if_false]
  rw [← List.cons_append, ← hat, ← List.reverse_append]
  exact List.reverse_reverse _

theorem trim_append_stable {rest : Str}
    (h1 : rest ≠ []) (h2 : rtrim rest = rest) {xs : Str} {a : Char}
    (ha : a.isWhitespace = false) :
    trim ((a :: xs) ++ rest) = (a :: xs) ++ rest := by
  unfold trim
  rw [List.cons_append, ltrim_cons ha, ← List.cons_append]
  exact rtrim_append h1 h2

/-! ### Lemmas about `validate_baseline` -/

/-- Returns `true` exactly when the result is the completeness ("not applied") error. -/
theorem find?_version_isNone_false {V : Str} {available : List Migration}
    (h : ∃ m ∈ available, m.version = V) :
    (available.find? (fun m => m.version == V)).isNone = false := by
  rcases h with ⟨m, hm, hv⟩
  cases hfind : available.find? (fun m => m.version == V) with
  | none =>
    rw [List.find?_eq_none] at hfind
    exact absurd (by simp [hv] : (m.version == V) = true) (hfind m hm)
  | some x => rfl

theorem validate_baseline_eq_applied {Ts : Type} {V : Str} {available : List Migration}
    {applied : List (AppliedMigration Ts)} {eb : Option (Baseline Ts)}
    (hmatch : ∃ m ∈ available, m.version = V)
    (hback : ∀ b, eb = some b → strLt V b.version = false) :
    validate_baseline V available applied eb = validate_applied V available applied := by
  unfold validate_baseline
  rw [find?_version_isNone_false hmatch]
  simp only [Bool.false_eq_true, if_false]
  cases eb with
  | none => rfl
  | some b =>
    show (if strLt V b.version = true then
        Except.error (BaselineError.moveBackward b.version V)
      else validate_applied V available applied) = validate_applied V available applied
    rw [hback b rfl]
    simp

theorem offender_bool_iff {Ts : Type} (V : Str) (applied : List (AppliedMigration Ts))
    (m : Migration) :
    (version_lte m.version V && !(applied.any (fun a => a.id == m.id))) = true ↔
      version_lte m.version V = true ∧ ¬ ∃ a ∈ applied, a.id = m.id := by
  simp [List.any_eq_true]

/-! ### Claim C1 -/

/-- C1 counterexample: with `available = [⟨a,1⟩]`, `applied = []`,
`V = "2"` and no baseline, migration `a` has version ≤ V and is unapplied,
yet `validate_baseline` does not return the "not applied" error (it returns
the "no migration" error, which takes precedence). -/
theorem validate_baseline_completeness_cex :
    (∃ m ∈ [migA], version_lte m.version ['2'] = true ∧
      ¬ ∃ a ∈ ([] : List (AppliedMigration Unit)), a.id = m.id) ∧
    isNotAppliedErr (validate_baseline ['2'] [migA]
      ([] : List (AppliedMigration Unit)) none) = false := by
  decide

/-- C1 (amended): provided `V` matches some available migration and the
backward-move check passes, `validate_baseline` fails with the "not applied"
error iff some available migration with version ≤ `V` has no applied entry
with its id; the error names the first such migration in `available` order. -/
theorem validate_baseline_completeness {Ts : Type} (V : Str) (available : List Migration)
    (applied : List (AppliedMigration Ts)) (eb : Option (Baseline Ts))
    (hmatch : ∃ m ∈ available, m.version = V)
    (hback : ∀ b, eb = some b → strLt V b.version = false) :
    ((∃ i, validate_baseline V available applied eb = .error (.notApplied i)) ↔
      ∃ m ∈ available, version_lte m.version V = true ∧ ¬ ∃ a ∈ applied, a.id = m.id) ∧
    ∀ m, available.find? (fun m' => version_lte m'.version V &&
        !(applied.any (fun a => a.id == m'.id))) = some m →
      validate_baseline V available applied eb = .error (.notApplied m.id) := by
  have heq := @validate_baseline_eq_applied Ts V available applied eb hmatch hback
  constructor
  · rw [heq]
    unfold validate_applied
    cases hfind : available.find? (fun m =>
        version_lte m.version V && !(applied.any (fun a => a.id == m.id))) with
    | none =>
      simp only
      constructor
      · rintro ⟨i, hi⟩
        exact absurd hi (by simp)
      · rintro ⟨m, hm, hlte, hnot⟩
        rw [List.find?_eq_none] at hfind
        exact absurd ((offender_bool_iff V applied m).mpr ⟨hlte, hnot⟩) (hfind m hm)
    | some m =>
      simp only
      constructor
      · intro _
        have hp := List.find?_some hfind
        have hmem := List.mem_of_find?_eq_some hfind
        rw [offender_bool_iff] at hp
        exact ⟨m, hmem, hp⟩
      · intro _
        exact ⟨m.id, rfl⟩
  · intro m hfind
    rw [heq]
    unfold validate_applied
    rw [hfind]

/-- C1 witness: at a concrete input satisfying the amended hypotheses, the
completeness error is raised. -/
theorem validate_baseline_completeness_wit :
    ∃ i, validate_baseline ['2'] [migA, migB] ([⟨['b'], ()⟩] : List (AppliedMigration Unit))
      none = .error (.notApplied i) :=
  (validate_baseline_completeness ['2'] [migA, migB] [⟨['b'], ()⟩] none
    (by decide) (by intro b hb; cases hb)).1.mpr (by decide)

/-! ### Claim C2 -/

/-- C2: with `V` matching an available migration and everything at or before
`V` applied, validation against an existing baseline `b` fails iff
`V < b.version` (strict, lexicographic); it fails exactly with the
backward-move error and succeeds when `V = b.version`. -/
theorem validate_baseline_backward_iff {Ts : Type} (V : Str) (available : List Migration)
    (applied : List (AppliedMigration Ts)) (b : Baseline Ts)
    (hmatch : ∃ m ∈ available, m.version = V)
    (hcomp : ∀ m ∈ available, version_lte m.version V = true → ∃ a ∈ applied, a.id = m.id) :
    (validate_baseline V available applied (some b) =
        .error (.moveBackward b.version V) ↔ strLt V b.version = true) ∧
    (validate_baseline V available applied (some b) = .ok () ↔
        strLt V b.version = false) ∧
    (V = b.version → validate_baseline V available applied (some b) = .ok ()) := by
  have happ : validate_applied V available applied = (.ok () : Except BaselineError Unit) := by
    unfold validate_applied
    have hnone : available.find? (fun m =>
        version_lte m.version V && !(applied.any (fun a => a.id == m.id))) = none := by
      rw [List.find?_eq_none]
      intro m hm hp
      rw [offender_bool_iff] at hp
      exact hp.2 (hcomp m hm hp.1)
    rw [hnone]
  have hval : validate_baseline V available applied (some b) =
      (if strLt V b.version = true then
        Except.error (BaselineError.moveBackward b.version V)
      else validate_applied V available applied) := by
    unfold validate_baseline
    rw [find?_version_isNone_false hmatch]
    simp
  refine ⟨?_, ?_, ?_⟩
  · rw [hval]
    cases hlt : strLt V b.version <;> simp [happ]
  · rw [hval]
    cases hlt : strLt V b.version <;> simp [happ]
  · intro hv
    have hlt : strLt V b.version = false := by rw [hv]; exact strLt_irrefl _
    rw [hval, hlt]
    simpa using happ

/-- C2 witness: at a concrete input, validation at the existing baseline's
own version succeeds. -/
theorem validate_baseline_backward_iff_wit :
    validate_baseline ['2'] [migA, migB]
      ([⟨['a'], ()⟩, ⟨['b'], ()⟩] : List (AppliedMigration Unit))
      (some ⟨['2'], (), none⟩) = .ok () :=
  (validate_baseline_backward_iff ['2'] [migA, migB] [⟨['a'], ()⟩, ⟨['b'], ()⟩]
    ⟨['2'], (), none⟩ (by decide) (by decide)).2.2 rfl

/-! ### Claim C3 -/

/-- C3: error precedence of `validate_baseline`: when `V` matches no
available migration the "no migration" error is returned regardless of the
other conditions, and when `V` matches but the backward-move condition is
violated, the backward error is returned regardless of completeness. -/
theorem validate_baseline_error_order {Ts : Type} (V : Str) (available : List Migration)
    (applied : List (AppliedMigration Ts)) (eb : Option (Baseline Ts)) :
    ((∀ m ∈ available, m.version ≠ V) →
      validate_baseline V available applied eb = .error (.noMigration V)) ∧
    (∀ b, eb = some b → (∃ m ∈ available, m.version = V) → strLt V b.version = true →
      validate_baseline V available applied eb = .error (.moveBackward b.version V)) := by
  constructor
  · intro hno
    unfold validate_baseline
    have hfind : available.find? (fun m => m.version == V) = none := by
      rw [List.find?_eq_none]
      intro m hm
      simp [hno m hm]
    rw [hfind]
    rfl
  · intro b hb hmatch hlt
    subst hb
    unfold validate_baseline
    rw [find?_version_isNone_false hmatch]
    simp [hlt]

/-- C3 witness: concrete inputs where both shadowed conditions are violated
still produce the higher-precedence error. -/
theorem validate_baseline_error_order_wit :
    validate_baseline ['3'] [migA] ([] : List (AppliedMigration Unit))
        (some ⟨['4'], (), none⟩) = .error (.noMigration ['3']) ∧
    validate_baseline ['1'] [migA, migB] ([] : List (AppliedMigration Unit))
        (some ⟨['2'], (), none⟩) = .error (.moveBackward ['2'] ['1']) :=
  ⟨(validate_baseline_error_order ['3'] [migA] [] (some ⟨['4'], (), none⟩)).1 (by decide),
   (validate_baseline_error_order ['1'] [migA, migB] [] (some ⟨['2'], (), none⟩)).2
     ⟨['2'], (), none⟩ rfl (by decide) (by decide)⟩

/-! ### Claim C4 -/

/-- C4: a migration is in `get_pending` iff it is available, not applied by
id, and (no baseline or version strictly greater than the baseline's); the
output is a sublist of `available` (order preserved). -/
theorem get_pending_characterization {Ts : Type} (available : List Migration)
    (state : HistoryState Ts) :
    (∀ m : Migration, m ∈ get_pending available state ↔
      m ∈ available ∧ (¬ ∃ a ∈ state.applied, a.id = m.id) ∧
        ∀ b, state.baseline = some b → strLe m.version b.version = false) ∧
    (get_pending available state).Sublist available := by
  constructor
  · intro m
    unfold get_pending
    rw [List.mem_filter]
    cases hb : state.baseline with
    | none => simp [List.any_eq_true]
    | some b => simp [List.any_eq_true]
  · exact List.filter_sublist available

/-! ### Claims C5 and C10: line shapes in the history log -/

/-- The timestamp field of a history line that matches a recognized record
shape (`none` when the line matches no recognized shape and is skipped).
Mirrors the branch structure of the `read_history` loop. -/
theorem procLine_bad_ts (C : Chrono) (st : HistoryState C.Ts) (l tss : Str)
    (h : tsField l = some tss) (hp : C.parse tss = none) :
    ∃ e, procLine C st l = .error e := by
  unfold tsField at h
  unfold procLine
  by_cases he : (trim l).isEmpty = true
  · simp [he] at h
  · simp only [he, Bool.false_eq_true, if_false] at h ⊢
    cases hsp : stripPre blMarker (trim l) with
    | some rest =>
      simp only [hsp] at h ⊢
      cases hparts : splitn 3 ' ' rest with
      | nil => simp [hparts] at h
      | cons v ps =>
        cases ps with
        | nil => simp [hparts] at h
        | cons t rps =>
          simp only [hparts] at h ⊢
          obtain rfl : t = tss := by simpa using h
          simp [hp]
    | none =>
      simp only [hsp] at h ⊢
      cases hparts : splitn 2 ' ' (trim l) with
      | nil => simp [hparts] at h
      | cons a ps =>
        cases ps with
        | nil => simp [hparts] at h
        | cons b qs =>
          cases qs with
          | nil =>
            simp only [hparts] at h ⊢
            obtain rfl : b = tss := by simpa using h
            simp [hp]
          | cons c rs => simp [hparts] at h

theorem procLine_unrecognized (C : Chrono) (st : HistoryState C.Ts) (l : Str)
    (h : tsField l = none) : procLine C st l = .ok st := by
  unfold tsField at h
  unfold procLine
  by_cases he : (trim l).isEmpty = true
  · simp [he]
  · simp only [he, Bool.false_eq_true, if_false] at h ⊢
    cases hsp : stripPre blMarker (trim l) with
    | some rest =>
      simp only [hsp] at h ⊢
      cases hparts : splitn 3 ' ' rest with
      | nil => simp [hparts]
      | cons v ps =>
        cases ps with
        | nil => simp [hparts]
        | cons t rps => simp [hparts] at h
    | none =>
      simp only [hsp] at h ⊢
      cases hparts : splitn 2 ' ' (trim l) with
      | nil => simp [hparts]
      | cons a ps =>
        cases ps with
        | nil => simp [hparts]
        | cons b qs =>
          cases qs with
          | nil => simp [hparts] at h
          | cons c rs => simp [hparts]

theorem parseHistory_error_aux (C : Chrono) (lines : List Str) :
    ∀ init : HistoryState C.Ts,
      (∃ l ∈ lines, ∃ tss, tsField l = some tss ∧ C.parse tss = none) →
      ∃ e, lines.foldlM (procLine C) init = .error e := by
  induction lines with
  | nil =>
    rintro init ⟨l, hl, _⟩
    simp at hl
  | cons a rest ih =>
    rintro init ⟨l, hl, tss, hts, hp⟩
    rw [List.foldlM_cons]
    rcases List.mem_cons.mp hl with rfl | hmem
    · rcases procLine_bad_ts C init l tss hts hp with ⟨e, he⟩
      rw [he]
      exact ⟨e, rfl⟩
    · cases hres : procLine C init a with
      | error e => exact ⟨e, rfl⟩
      | ok st' => simpa using ih st' ⟨l, hmem, tss, hts, hp⟩

/-- C5: per line, a recognized record shape (baseline record with version and
timestamp fields, or applied record `id timestamp`) whose timestamp field
does not parse aborts the read with an error, while a line matching no
recognized shape is silently skipped (state unchanged, no error); a log
containing such a broken recognized line always fails to read. -/
theorem read_history_malformed_asymmetry :
    (∀ (C : Chrono) (st : HistoryState C.Ts) (l tss : Str),
      tsField l = some tss → C.parse tss = none → ∃ e, procLine C st l = .error e) ∧
    (∀ (C : Chrono) (st : HistoryState C.Ts) (l : Str),
      tsField l = none → procLine C st l = .ok st) ∧
    (∀ (C : Chrono) (lines : List Str),
      (∃ l ∈ lines, ∃ tss, tsField l = some tss ∧ C.parse tss = none) →
      ∃ e, parseHistory C lines = .error e) :=
  ⟨procLine_bad_ts, procLine_unrecognized,
   fun C lines h => parseHistory_error_aux C lines ⟨[], none⟩ h⟩

/-- C5 witness: a recognized applied record with a bad timestamp errors, a
foreign line is skipped, and a log containing the bad record fails whole. -/
theorem read_history_malformed_asymmetry_wit :
    (∃ e, procLine WitChrono ⟨[], none⟩ "m1 X".toList = .error e) ∧
    procLine WitChrono ⟨[], none⟩ "junk".toList = .ok ⟨[], none⟩ ∧
    ∃ e, parseHistory WitChrono ["ok T".toList, "m1 X".toList] = .error e :=
  ⟨read_history_malformed_asymmetry.1 WitChrono ⟨[], none⟩ "m1 X".toList "X".toList
      (by decide) (by decide),
   read_history_malformed_asymmetry.2.1 WitChrono ⟨[], none⟩ "junk".toList (by decide),
   read_history_malformed_asymmetry.2.2 WitChrono ["ok T".toList, "m1 X".toList]
      ⟨"m1 X".toList, by decide, "X".toList, by decide, by decide⟩⟩

/-- C10: a log line whose trimmed form is the baseline marker followed by a
single space-free token (a version but no timestamp field) is silently
skipped by the `read_history` loop: no error and no baseline is set. -/
theorem read_history_skips_tokenless_baseline (C : Chrono) (st : HistoryState C.Ts)
    (l v : Str) (h1 : trim l = blMarker ++ v) (h2 : v ≠ [])
    (h3 : ∀ ch ∈ v, ch ≠ ' ') :
    procLine C st l = .ok st := by
  unfold procLine
  have hne : (blMarker ++ v).isEmpty = false := by
    cases hh : (blMarker ++ v).isEmpty
    · rfl
    · rw [List.isEmpty_iff] at hh
      exact absurd hh (by simp [blMarker])
  rw [h1] at *
  simp only [hne, Bool.false_eq_true, if_false, stripPre_append,
    splitn_no_sep h3 2]

/-- C10 witness: the line `baseline: 1f710` is skipped with the state
unchanged. -/
theorem read_history_skips_tokenless_baseline_wit :
    procLine WitChrono ⟨[], none⟩ "baseline: 1f710".toList = .ok ⟨[], none⟩ :=
  read_history_skips_tokenless_baseline WitChrono ⟨[], none⟩
    "baseline: 1f710".toList "1f710".toList (by decide) (by decide) (by decide)

/-! ### Claim C6: baseline cleanup -/

theorem parentDir_eq {p par : FilePath} (h : parentDir p = some par) :
    par = p.dropLast := by
  cases p with
  | nil => cases h
  | cons a ps =>
    unfold parentDir at h
    cases h
    rfl

theorem deleteFileStep_dirs (m : Migration) (fs : FS) :
    (deleteFileStep m fs).1.dirs = fs.dirs := by
  unfold deleteFileStep
  split <;> rfl

theorem deleteFileStep_files_sub (m : Migration) (fs : FS) :
    ∀ x ∈ (deleteFileStep m fs).1.files, x ∈ fs.files := by
  unfold deleteFileStep
  split
  · intro x hx
    simp only [removeFile, List.mem_filter] at hx
    exact hx.1
  · intro x hx
    exact hx

theorem deleteFileStep_removes (m : Migration) (fs : FS) :
    m.file_path ∉ (deleteFileStep m fs).1.files := by
  unfold deleteFileStep
  split
  · simp [removeFile, List.mem_filter]
  · next hc =>
    simp at hc
    exact hc

theorem deleteFileStep_items (m : Migration) (fs : FS) :
    ∀ it ∈ (deleteFileStep m fs).2,
      it.is_directory = false ∧ it.path ∈ fs.files ∧ it.path = m.file_path := by
  unfold deleteFileStep
  split
  · next hc =>
    intro it hit
    simp only [List.mem_singleton] at hit
    subst hit
    simp at hc
    exact ⟨rfl, hc, rfl⟩
  · intro it hit
    simp at hit

theorem deleteOne_files_sub (v : Str) (m : Migration) (fs : FS) :
    ∀ x ∈ (deleteOne v m fs).1.files, x ∈ fs.files := by
  unfold deleteOne
  dsimp only
  split
  · split
    · split
      · intro x hx
        simp only [removeDirAll, List.mem_filter] at hx
        exact deleteFileStep_files_sub m fs x hx.1
      · exact deleteFileStep_files_sub m fs
    · exact deleteFileStep_files_sub m fs
  · intro x hx
    exact hx

theorem deleteOne_dirs_sub (v : Str) (m : Migration) (fs : FS) :
    ∀ x ∈ (deleteOne v m fs).1.dirs, x ∈ fs.dirs := by
  unfold deleteOne
  dsimp only
  split
  · split
    · split
      · intro x hx
        simp only [removeDirAll, List.mem_filter] at hx
        rw [deleteFileStep_dirs] at hx
        exact hx.1
      · rw [deleteFileStep_dirs]
        intro x hx
        exact hx
    · rw [deleteFileStep_dirs]
      intro x hx
      exact hx
  · intro x hx
    exact hx

theorem deleteOne_post_file (v : Str) (m : Migration) (fs : FS)
    (hlte : version_lte m.version v = true) :
    m.file_path ∉ (deleteOne v m fs).1.files := by
  unfold deleteOne
  dsimp only
  rw [if_pos hlte]
  split
  · split
    · intro h
      simp only [removeDirAll, List.mem_filter] at h
      exact deleteFileStep_removes m fs h.1
    · exact deleteFileStep_removes m fs
  · exact deleteFileStep_removes m fs

theorem deleteOne_post_dir (v : Str) (m : Migration) (fs : FS)
    (hlte : version_lte m.version v = true) (par : FilePath)
    (hpar : parentDir m.file_path = some par) :
    par ++ [m.id] ∉ (deleteOne v m fs).1.dirs := by
  unfold deleteOne
  dsimp only
  rw [if_pos hlte, hpar]
  dsimp only
  split
  · intro h
    simp only [removeDirAll, List.mem_filter] at h
    have : (par ++ [m.id]).isPrefixOf (par ++ [m.id]) = true :=
      List.isPrefixOf_iff_prefix.mpr (List.prefix_refl _)
    rw [this] at h
    simp at h
  · next hcond =>
    rw [deleteFileStep_dirs]
    intro hmem
    apply hcond
    rw [deleteFileStep_dirs]
    simp [hmem]

theorem deleteOne_items (v : Str) (m : Migration) (fs : FS) :
    ∀ it ∈ (deleteOne v m fs).2,
      (it.is_directory = false → it.path ∈ fs.files) ∧
      (it.is_directory = true → it.path ∈ fs.dirs) := by
  unfold deleteOne
  dsimp only
  split
  · split
    · split
      · next hcond =>
        intro it hit
        rcases List.mem_append.mp hit with hleft | hright
        · rcases deleteFileStep_items m fs it hleft with ⟨hdir, hmem, _⟩
          exact ⟨fun _ => hmem, fun h => absurd h (by rw [hdir]; simp)⟩
        · simp only [List.mem_singleton] at hright
          subst hright
          refine ⟨fun h => absurd h (by simp), fun _ => ?_⟩
          have hd := (Bool.and_eq_true_iff.mp hcond).2
          rw [deleteFileStep_dirs] at hd
          simpa using hd
      · intro it hit
        rcases deleteFileStep_items m fs it hit with ⟨hdir, hmem, _⟩
        exact ⟨fun _ => hmem, fun h => absurd h (by rw [hdir]; simp)⟩
    · intro it hit
      rcases deleteFileStep_items m fs it hit with ⟨hdir, hmem, _⟩
      exact ⟨fun _ => hmem, fun h => absurd h (by rw [hdir]; simp)⟩
  · intro it hit
    simp at hit

theorem delete_cons (v : Str) (m : Migration) (rest : List Migration) (fs : FS) :
    delete_baselined_migrations v (m :: rest) fs =
      ((delete_baselined_migrations v rest (deleteOne v m fs).1).1,
       (deleteOne v m fs).2 ++ (delete_baselined_migrations v rest (deleteOne v m fs).1).2) := by
  rfl

theorem delete_files_sub (v : Str) (avail : List Migration) :
    ∀ fs : FS, ∀ x ∈ (delete_baselined_migrations v avail fs).1.files, x ∈ fs.files := by
  induction avail with
  | nil => intro fs x hx; exact hx
  | cons m rest ih =>
    intro fs x hx
    rw [delete_cons] at hx
    exact deleteOne_files_sub v m fs x (ih _ x hx)

theorem delete_dirs_sub (v : Str) (avail : List Migration) :
    ∀ fs : FS, ∀ x ∈ (delete_baselined_migrations v avail fs).1.dirs, x ∈ fs.dirs := by
  induction avail with
  | nil => intro fs x hx; exact hx
  | cons m rest ih =>
    intro fs x hx
    rw [delete_cons] at hx
    exact deleteOne_dirs_sub v m fs x (ih _ x hx)

theorem delete_post (v : Str) (avail : List Migration) :
    ∀ fs : FS, ∀ m ∈ avail, version_lte m.version v = true →
      m.file_path ∉ (delete_baselined_migrations v avail fs).1.files ∧
      ∀ par, parentDir m.file_path = some par →
        par ++ [m.id] ∉ (delete_baselined_migrations v avail fs).1.dirs := by
  induction avail with
  | nil => intro fs m hm; simp at hm
  | cons a rest ih =>
    intro fs m hm hlte
    rcases List.mem_cons.mp hm with rfl | hmem
    · constructor
      · intro hx
        rw [delete_cons] at hx
        exact deleteOne_post_file v m fs hlte (delete_files_sub v rest _ _ hx)
      · intro par hpar hx
        rw [delete_cons] at hx
        exact deleteOne_post_dir v m fs hlte par hpar (delete_dirs_sub v rest _ _ hx)
    · rw [delete_cons]
      exact ih _ m hmem hlte

theorem delete_nothing (v : Str) (avail : List Migration) :
    ∀ fs : FS,
      (∀ m ∈ avail, version_lte m.version v = true →
        m.file_path ∉ fs.files ∧ ∀ par, parentDir m.file_path = some par →
          par ++ [m.id] ∉ fs.dirs) →
      delete_baselined_migrations v avail fs = (fs, []) := by
  induction avail with
  | nil => intro fs _; rfl
  | cons a rest ih =>
    intro fs h
    have hone : deleteOne v a fs = (fs, []) := by
      unfold deleteOne
      dsimp only
      by_cases hlte : version_lte a.version v = true
      · rw [if_pos hlte]
        have hfile := (h a (List.mem_cons_self a rest) hlte).1
        have hstep : deleteFileStep a fs = (fs, []) := by
          unfold deleteFileStep
          have hc : fs.files.contains a.file_path = false := by
            simpa using hfile
          rw [hc]
          simp
        rw [hstep]
        cases hp : parentDir a.file_path with
        | none => rfl
        | some par =>
          have hdir := (h a (List.mem_cons_self a rest) hlte).2 par hp
          have hc : fs.dirs.contains (par ++ [a.id]) = false := by
            simpa using hdir
          simp only [hc, Bool.and_false, Bool.false_eq_true, if_false]
      · rw [if_neg hlte]
    rw [delete_cons, hone]
    have hrest := ih fs (fun m hm => h m (List.mem_cons_of_mem a hm))
    simp [hrest]

theorem delete_items_sound (v : Str) (avail : List Migration) :
    ∀ fs : FS, ∀ it ∈ (delete_baselined_migrations v avail fs).2,
      (it.is_directory = false → it.path ∈ fs.files) ∧
      (it.is_directory = true → it.path ∈ fs.dirs) := by
  induction avail with
  | nil => intro fs it hit; simp [delete_baselined_migrations] at hit
  | cons a rest ih =>
    intro fs it hit
    rw [delete_cons] at hit
    rcases List.mem_append.mp hit with hleft | hright
    · exact deleteOne_items v a fs it hleft
    · rcases ih _ it hright with ⟨hf, hd⟩
      exact ⟨fun h => deleteOne_files_sub v a fs _ (hf h),
             fun h => deleteOne_dirs_sub v a fs _ (hd h)⟩

theorem deleteOne_skip (v : Str) (m : Migration) (fs : FS)
    (hlte : version_lte m.version v = false) :
    deleteOne v m fs = (fs, []) := by
  unfold deleteOne
  rw [if_neg (by simp [hlte])]

theorem deleteOne_items_split (v : Str) (m : Migration) (fs : FS)
    (hlte : version_lte m.version v = true) :
    (((deleteOne v m fs).2.filter (fun it => !it.is_directory)).map
        DeletedItem.path).Sublist [m.file_path] ∧
    (((deleteOne v m fs).2.filter (fun it => it.is_directory)).map
        DeletedItem.path).Sublist [m.file_path.dropLast ++ [m.id]] := by
  have hfile : (((deleteFileStep m fs).2.filter (fun it => !it.is_directory)).map
      DeletedItem.path).Sublist [m.file_path] := by
    unfold deleteFileStep
    split <;> simp
  have hdir : (deleteFileStep m fs).2.filter (fun it => it.is_directory) = [] := by
    unfold deleteFileStep
    split <;> simp
  unfold deleteOne
  dsimp only
  rw [if_pos hlte]
  split
  · rename_i par heq
    obtain rfl := parentDir_eq heq
    split
    · constructor
      · rw [List.filter_append]
        have h1 : List.filter (fun it => !it.is_directory)
            [(⟨m.file_path.dropLast ++ [m.id], true⟩ : DeletedItem)] = [] := rfl
        rw [h1, List.append_nil]
        exact hfile
      · rw [List.filter_append, hdir]
        have h2 : List.filter (fun it => it.is_directory)
            [(⟨m.file_path.dropLast ++ [m.id], true⟩ : DeletedItem)] =
            [⟨m.file_path.dropLast ++ [m.id], true⟩] := rfl
        rw [h2]
        exact List.Sublist.refl _
    · exact ⟨hfile, by rw [hdir]; exact List.nil_sublist _⟩
  · exact ⟨hfile, by rw [hdir]; exact List.nil_sublist _⟩

theorem delete_items_order (v : Str) (avail : List Migration) :
    ∀ fs : FS,
      (((delete_baselined_migrations v avail fs).2.filter
          (fun it => !it.is_directory)).map DeletedItem.path).Sublist
        ((avail.filter (fun m => version_lte m.version v)).map Migration.file_path) ∧
      (((delete_baselined_migrations v avail fs).2.filter
          (fun it => it.is_directory)).map DeletedItem.path).Sublist
        ((avail.filter (fun m => version_lte m.version v)).map
          (fun m => m.file_path.dropLast ++ [m.id])) := by
  induction avail with
  | nil =>
    intro fs
    constructor <;> simp [delete_baselined_migrations]
  | cons a rest ih =>
    intro fs
    rw [delete_cons]
    by_cases hlte : version_lte a.version v = true
    · have hsplit := deleteOne_items_split v a fs hlte
      have hih := ih (deleteOne v a fs).1
      constructor
      · simp only [List.filter_append, List.map_append, List.filter_cons, hlte,
          if_true, List.map_cons]
        exact hsplit.1.append hih.1
      · simp only [List.filter_append, List.map_append, List.filter_cons, hlte,
          if_true, List.map_cons]
        exact hsplit.2.append hih.2
    · have hb : version_lte a.version v = false := by
        cases hx : version_lte a.version v
        · rfl
        · exact absurd hx hlte
      rw [deleteOne_skip v a fs hb]
      simpa [List.filter_cons, hb] using ih fs

theorem deleteFileStep_removal (a : Migration) (fs : FS) :
    ∀ x ∈ fs.files, x ∉ (deleteFileStep a fs).1.files →
      (⟨x, false⟩ : DeletedItem) ∈ (deleteFileStep a fs).2 := by
  unfold deleteFileStep
  split
  · intro x hx hnx
    simp only [removeFile, List.mem_filter] at hnx
    have hxeq : x = a.file_path := by
      by_contra hne
      exact hnx ⟨hx, by simp [hne]⟩
    subst hxeq
    simp
  · intro x hx hnx
    exact absurd hx hnx

theorem deleteOne_removal_recorded_file (v : Str) (a : Migration) (fs : FS) :
    ∀ x ∈ fs.files, x ∉ (deleteOne v a fs).1.files →
      (⟨x, false⟩ : DeletedItem) ∈ (deleteOne v a fs).2 ∨
      ∃ it ∈ (deleteOne v a fs).2, it.is_directory = true ∧ it.path.isPrefixOf x = true := by
  unfold deleteOne
  dsimp only
  split
  · split
    · split
      · rename_i par heq hcond
        intro x hx hnx
        by_cases hx1 : x ∈ (deleteFileStep a fs).1.files
        · right
          simp only [removeDirAll, List.mem_filter] at hnx
          have hpre : (par ++ [a.id]).isPrefixOf x = true := by
            cases hp : (par ++ [a.id]).isPrefixOf x
            · exact absurd ⟨hx1, by simp [hp]⟩ hnx
            · rfl
          exact ⟨⟨par ++ [a.id], true⟩, List.mem_append.mpr (Or.inr (by simp)),
            rfl, hpre⟩
        · left
          exact List.mem_append.mpr (Or.inl (deleteFileStep_removal a fs x hx hx1))
      · intro x hx hnx
        exact Or.inl (deleteFileStep_removal a fs x hx hnx)
    · intro x hx hnx
      exact Or.inl (deleteFileStep_removal a fs x hx hnx)
  · intro x hx hnx
    exact absurd hx hnx

theorem deleteOne_removal_recorded_dir (v : Str) (a : Migration) (fs : FS) :
    ∀ d ∈ fs.dirs, d ∉ (deleteOne v a fs).1.dirs →
      ∃ it ∈ (deleteOne v a fs).2, it.is_directory = true ∧ it.path.isPrefixOf d = true := by
  unfold deleteOne
  dsimp only
  split
  · split
    · split
      · rename_i par heq hcond
        intro d hd hnd
        simp only [removeDirAll, List.mem_filter] at hnd
        have hd1 : d ∈ (deleteFileStep a fs).1.dirs := by
          rw [deleteFileStep_dirs]
          exact hd
        have hpre : (par ++ [a.id]).isPrefixOf d = true := by
          cases hp : (par ++ [a.id]).isPrefixOf d
          · exact absurd ⟨hd1, by simp [hp]⟩ hnd
          · rfl
        exact ⟨⟨par ++ [a.id], true⟩, List.mem_append.mpr (Or.inr (by simp)),
          rfl, hpre⟩
      · intro d hd hnd
        rw [deleteFileStep_dirs] at hnd
        exact absurd hd hnd
    · intro d hd hnd
      rw [deleteFileStep_dirs] at hnd
      exact absurd hd hnd
  · intro d hd hnd
    exact absurd hd hnd

theorem delete_removal_recorded_file (v : Str) (avail : List Migration) :
    ∀ fs : FS, ∀ x ∈ fs.files,
      x ∉ (delete_baselined_migrations v avail fs).1.files →
      (⟨x, false⟩ : DeletedItem) ∈ (delete_baselined_migrations v avail fs).2 ∨
      ∃ it ∈ (delete_baselined_migrations v avail fs).2,
        it.is_directory = true ∧ it.path.isPrefixOf x = true := by
  induction avail with
  | nil =>
    intro fs x hx hnx
    exact absurd hx hnx
  | cons a rest ih =>
    intro fs x hx hnx
    rw [delete_cons] at hnx ⊢
    by_cases hx1 : x ∈ (deleteOne v a fs).1.files
    · rcases ih (deleteOne v a fs).1 x hx1 hnx with hfile | ⟨it, hit, hdir, hpre⟩
      · exact Or.inl (List.mem_append.mpr (Or.inr hfile))
      · exact Or.inr ⟨it, List.mem_append.mpr (Or.inr hit), hdir, hpre⟩
    · rcases deleteOne_removal_recorded_file v a fs x hx hx1 with
        hfile | ⟨it, hit, hdir, hpre⟩
      · exact Or.inl (List.mem_append.mpr (Or.inl hfile))
      · exact Or.inr ⟨it, List.mem_append.mpr (Or.inl hit), hdir, hpre⟩

theorem delete_removal_recorded_dir (v : Str) (avail : List Migration) :
    ∀ fs : FS, ∀ d ∈ fs.dirs,
      d ∉ (delete_baselined_migrations v avail fs).1.dirs →
      ∃ it ∈ (delete_baselined_migrations v avail fs).2,
        it.is_directory = true ∧ it.path.isPrefixOf d = true := by
  induction avail with
  | nil =>
    intro fs d hd hnd
    exact absurd hd hnd
  | cons a rest ih =>
    intro fs d hd hnd
    rw [delete_cons] at hnd ⊢
    by_cases hd1 : d ∈ (deleteOne v a fs).1.dirs
    · rcases ih (deleteOne v a fs).1 d hd1 hnd with ⟨it, hit, hdir, hpre⟩
      exact ⟨it, List.mem_append.mpr (Or.inr hit), hdir, hpre⟩
    · rcases deleteOne_removal_recorded_dir v a fs d hd hd1 with ⟨it, hit, hdir, hpre⟩
      exact ⟨it, List.mem_append.mpr (Or.inl hit), hdir, hpre⟩

/-- C6: cleanup at `baseline_version` removes the script file and the
sibling asset directory (named as the migration id) of every migration at or
before that version; every recorded DeletedItem was a real file/directory of
the input filesystem (files and directories as separate items, in discovery
order — the recorded paths form sublists of the candidate files resp.
directories in `available` order); when nothing relevant exists the run
removes nothing and reports no items (a missing script is not an error), so
a second run reports an empty DeletedItem list.  Conversely, each actual
removal is recorded: any file (resp. directory) present before but absent
after cleanup appears in the item list, either as its own item or inside a
recorded recursive directory removal; in particular a present script file of
a baselined migration produces a DeletedItem, and a present asset directory
produces a directory DeletedItem covering it. -/
theorem delete_baselined_migrations_spec (v : Str) (available : List Migration) (fs : FS) :
    (∀ m ∈ available, version_lte m.version v = true →
      m.file_path ∉ (delete_baselined_migrations v available fs).1.files ∧
      ∀ par, parentDir m.file_path = some par →
        par ++ [m.id] ∉ (delete_baselined_migrations v available fs).1.dirs) ∧
    (∀ it ∈ (delete_baselined_migrations v available fs).2,
      (it.is_directory = false → it.path ∈ fs.files) ∧
      (it.is_directory = true → it.path ∈ fs.dirs)) ∧
    (((delete_baselined_migrations v available fs).2.filter
        (fun it => !it.is_directory)).map DeletedItem.path).Sublist
      ((available.filter (fun m => version_lte m.version v)).map Migration.file_path) ∧
    (((delete_baselined_migrations v available fs).2.filter
        (fun it => it.is_directory)).map DeletedItem.path).Sublist
      ((available.filter (fun m => version_lte m.version v)).map
        (fun m => m.file_path.dropLast ++ [m.id])) ∧
    ((∀ m ∈ available, version_lte m.version v = true →
        m.file_path ∉ fs.files ∧ ∀ par, parentDir m.file_path = some par →
          par ++ [m.id] ∉ fs.dirs) →
      delete_baselined_migrations v available fs = (fs, [])) ∧
    delete_baselined_migrations v available
        (delete_baselined_migrations v available fs).1 =
      ((delete_baselined_migrations v available fs).1, []) ∧
    (∀ x ∈ fs.files, x ∉ (delete_baselined_migrations v available fs).1.files →
      (⟨x, false⟩ : DeletedItem) ∈ (delete_baselined_migrations v available fs).2 ∨
      ∃ it ∈ (delete_baselined_migrations v available fs).2,
        it.is_directory = true ∧ it.path.isPrefixOf x = true) ∧
    (∀ d ∈ fs.dirs, d ∉ (delete_baselined_migrations v available fs).1.dirs →
      ∃ it ∈ (delete_baselined_migrations v available fs).2,
        it.is_directory = true ∧ it.path.isPrefixOf d = true) ∧
    (∀ m ∈ available, version_lte m.version v = true → m.file_path ∈ fs.files →
      (⟨m.file_path, false⟩ : DeletedItem) ∈ (delete_baselined_migrations v available fs).2 ∨
      ∃ it ∈ (delete_baselined_migrations v available fs).2,
        it.is_directory = true ∧ it.path.isPrefixOf m.file_path = true) ∧
    (∀ m ∈ available, version_lte m.version v = true →
      ∀ par, parentDir m.file_path = some par → par ++ [m.id] ∈ fs.dirs →
      ∃ it ∈ (delete_baselined_migrations v available fs).2,
        it.is_directory = true ∧ it.path.isPrefixOf (par ++ [m.id]) = true) := by
  refine ⟨delete_post v available fs, delete_items_sound v available fs,
    (delete_items_order v available fs).1, (delete_items_order v available fs).2,
    delete_nothing v available fs, ?_, delete_removal_recorded_file v available fs,
    delete_removal_recorded_dir v available fs, ?_, ?_⟩
  · exact delete_nothing v available _ (delete_post v available fs)
  · intro m hm hlte hpres
    exact delete_removal_recorded_file v available fs m.file_path hpres
      ((delete_post v available fs m hm hlte).1)
  · intro m hm hlte par hpar hpres
    exact delete_removal_recorded_dir v available fs (par ++ [m.id]) hpres
      ((delete_post v available fs m hm hlte).2 par hpar)

/-- C6 witness: at the concrete scenario, the baselined script file and its
asset directory are gone after cleanup, their removals are recorded as
DeletedItems, and a second run deletes nothing. -/
theorem delete_baselined_migrations_spec_wit :
    migC6a.file_path ∉
      (delete_baselined_migrations "1f710".toList [migC6a, migC6b] fsC6).1.files ∧
    [['d']] ++ [migC6a.id] ∉
      (delete_baselined_migrations "1f710".toList [migC6a, migC6b] fsC6).1.dirs ∧
    delete_baselined_migrations "1f710".toList [migC6a, migC6b]
        (delete_baselined_migrations "1f710".toList [migC6a, migC6b] fsC6).1 =
      ((delete_baselined_migrations "1f710".toList [migC6a, migC6b] fsC6).1, []) ∧
    ((⟨migC6a.file_path, false⟩ : DeletedItem) ∈
        (delete_baselined_migrations "1f710".toList [migC6a, migC6b] fsC6).2 ∨
      ∃ it ∈ (delete_baselined_migrations "1f710".toList [migC6a, migC6b] fsC6).2,
        it.is_directory = true ∧ it.path.isPrefixOf migC6a.file_path = true) ∧
    ∃ it ∈ (delete_baselined_migrations "1f710".toList [migC6a, migC6b] fsC6).2,
      it.is_directory = true ∧ it.path.isPrefixOf ([['d']] ++ [migC6a.id]) = true := by
  have h := delete_baselined_migrations_spec "1f710".toList [migC6a, migC6b] fsC6
  exact ⟨(h.1 migC6a (by decide) (by decide)).1,
    (h.1 migC6a (by decide) (by decide)).2 [['d']] (by decide),
    h.2.2.2.2.2.1,
    h.2.2.2.2.2.2.2.2.1 migC6a (by decide) (by decide) (by decide),
    h.2.2.2.2.2.2.2.2.2 migC6a (by decide) (by decide) [['d']] (by decide) (by decide)⟩

/-! ### Reading back a serialized baseline line (claims C7, C8, C9) -/

theorem blMarker_cons : blMarker = 'b' :: "aseline: ".toList := rfl

theorem trim_blMarker_append {rest : Str} (h1 : rest ≠ []) (h2 : rtrim rest = rest)
    (mid : Str) : trim (blMarker ++ mid ++ rest) = blMarker ++ mid ++ rest := by
  have hshape : blMarker ++ mid ++ rest =
      ('b' :: ("aseline: ".toList ++ mid)) ++ rest := by
    rw [blMarker_cons]
    simp
  rw [hshape]
  exact trim_append_stable h1 h2 (by decide)

theorem procLine_marker_line (C : Chrono) (st : HistoryState C.Ts) (body : Str)
    (htrim : trim (blMarker ++ body) = blMarker ++ body) :
    procLine C st (blMarker ++ body) =
      (match splitn 3 ' ' body with
       | version :: tss :: restParts =>
         match C.parse tss with
         | none => .error (.badBaselineTs tss)
         | some created =>
           .ok { st with baseline := some ⟨version, created,
             match restParts with | [s] => some s | _ => none⟩ }
       | _ => .ok st) := by
  unfold procLine
  dsimp only
  rw [htrim]
  have hemp : (blMarker ++ body).isEmpty = false := by
    rw [blMarker_cons]
    rfl
  rw [hemp]
  simp only [Bool.false_eq_true, if_false]
  rw [stripPre_append]

/-- A serialized baseline line reads back as the same baseline with its
summary flattened, replacing whatever baseline the state held. -/
theorem procLine_format_baseline (C : Chrono) (b : Baseline C.Ts)
    (hw : writableBaseline C b) (st : HistoryState C.Ts) :
    procLine C st (format_baseline_line C b) =
      .ok { st with baseline := some (readBack C b) } := by
  obtain ⟨hrt, hsp, hne, htr, hvsp, hsum⟩ := hw
  cases hbs : b.summary with
  | none =>
    have hline : format_baseline_line C b =
        blMarker ++ (b.version ++ ' ' :: C.toRfc3339 b.created) := by
      unfold format_baseline_line
      rw [hbs]
      simp
    have hstable : trim (blMarker ++ (b.version ++ ' ' :: C.toRfc3339 b.created)) =
        blMarker ++ (b.version ++ ' ' :: C.toRfc3339 b.created) := by
      have hshape : blMarker ++ (b.version ++ ' ' :: C.toRfc3339 b.created) =
          blMarker ++ (b.version ++ [' ']) ++ C.toRfc3339 b.created := by
        simp
      rw [hshape]
      exact trim_blMarker_append hne htr _
    have h3 : splitn 3 ' ' (b.version ++ ' ' :: C.toRfc3339 b.created) =
        b.version :: splitn 2 ' ' (C.toRfc3339 b.created) :=
      splitn_append_sep hvsp 1
    have h2 : splitn 2 ' ' (C.toRfc3339 b.created) = [C.toRfc3339 b.created] :=
      splitn_no_sep hsp 1
    rw [hline, procLine_marker_line C st _ hstable, h3, h2]
    dsimp only
    rw [hrt]
    unfold readBack
    rw [hbs]
    rfl
  | some s =>
    rw [hbs] at hsum
    obtain ⟨hsne, hstr⟩ := hsum
    have hline : format_baseline_line C b =
        blMarker ++ (b.version ++ ' ' :: (C.toRfc3339 b.created ++ ' ' :: flattenNl s)) := by
      unfold format_baseline_line
      rw [hbs]
      simp
    have hstable : trim (blMarker ++
        (b.version ++ ' ' :: (C.toRfc3339 b.created ++ ' ' :: flattenNl s))) =
        blMarker ++ (b.version ++ ' ' :: (C.toRfc3339 b.created ++ ' ' :: flattenNl s)) := by
      have hshape : blMarker ++
          (b.version ++ ' ' :: (C.toRfc3339 b.created ++ ' ' :: flattenNl s)) =
          blMarker ++ (b.version ++ [' '] ++ C.toRfc3339 b.created ++ [' ']) ++ flattenNl s := by
        simp
      rw [hshape]
      exact trim_blMarker_append hsne hstr _
    have h3 : splitn 3 ' ' (b.version ++ ' ' :: (C.toRfc3339 b.created ++ ' ' :: flattenNl s)) =
        b.version :: splitn 2 ' ' (C.toRfc3339 b.created ++ ' ' :: flattenNl s) :=
      splitn_append_sep hvsp 1
    have h2 : splitn 2 ' ' (C.toRfc3339 b.created ++ ' ' :: flattenNl s) =
        C.toRfc3339 b.created :: splitn 1 ' ' (flattenNl s) :=
      splitn_append_sep hsp 0
    rw [hline, procLine_marker_line C st _ hstable, h3, h2]
    dsimp only [splitn]
    rw [hrt]
    unfold readBack
    rw [hbs]
    rfl

theorem read_history_no_residual (C : Chrono) (dir : Dir) (h : List Str)
    (st : HistoryState C.Ts) (hh : dir.history = some h)
    (hst : parseHistory C h = .ok st)
    (hnb : st.baseline = none → dir.legacy_baseline = none) :
    read_history C dir = .ok (st, dir) := by
  unfold read_history
  have hcond : (dir.history.isNone && dir.legacy_history.isSome) = false := by
    rw [hh]
    rfl
  rw [hcond]
  simp only [Bool.false_eq_true, if_false]
  show (pure dir >>= fun dir => _) = _
  rw [pure_bind]
  rw [hh]
  dsimp only
  rw [hst]
  show (pure st >>= fun st => _) = _
  rw [pure_bind]
  cases hb : st.baseline with
  | some b0 =>
    cases dir.legacy_baseline <;> rfl
  | none =>
    rw [hnb hb]

theorem read_history_residual (C : Chrono) (dir : Dir) (h : List Str)
    (st : HistoryState C.Ts) (lb : List Str) (b : Baseline C.Ts)
    (hh : dir.history = some h) (hst : parseHistory C h = .ok st)
    (hb : st.baseline = none) (hlb : dir.legacy_baseline = some lb)
    (hrl : read_legacy_baseline C lb = .ok (some b)) :
    read_history C dir = .ok ({ st with baseline := some b },
      { dir with history := some (h ++ [format_baseline_line C b]),
                 legacy_baseline := none }) := by
  unfold read_history
  have hcond : (dir.history.isNone && dir.legacy_history.isSome) = false := by
    rw [hh]
    rfl
  rw [hcond]
  simp only [Bool.false_eq_true, if_false]
  show (pure dir >>= fun dir => _) = _
  rw [pure_bind]
  rw [hh]
  dsimp only
  rw [hst]
  show (pure st >>= fun st => _) = _
  rw [pure_bind]
  rw [hb, hlb]
  dsimp only
  rw [hrl]
  show (pure (some b) >>= fun ob => _) = _
  rw [pure_bind]
  dsimp only
  unfold append_baseline
  rw [hh]
  rfl

/-! ### Claim C7: legacy upgrade -/

theorem parseHistory_snoc_baseline (C : Chrono) (lines : List Str)
    (st : HistoryState C.Ts) (b : Baseline C.Ts)
    (hst : parseHistory C lines = .ok st) (hw : writableBaseline C b) :
    parseHistory C (lines ++ [format_baseline_line C b]) =
      .ok { st with baseline := some (readBack C b) } := by
  unfold parseHistory at hst ⊢
  rw [List.foldlM_append, hst]
  show (pure st >>= fun st => _) = _
  rw [pure_bind, List.foldlM_cons, procLine_format_baseline C b hw st]
  rfl

/-- C7 (amended): with no current-format log, a legacy applied log parsing
to records `A`, and a legacy baseline file decoding to a serializable
baseline `b` (version without spaces, flattened summary nonempty without
trailing whitespace, timestamp rendering round-tripping), one `read` produces the
state `⟨A, b with summary flattened⟩`, leaves a current log holding the
legacy applied lines plus one serialized baseline record, deletes both
legacy files, and a second `read` returns the identical state without
changing the directory again. -/
theorem read_history_legacy_upgrade (C : Chrono) (lh lb : List Str)
    (A : List (AppliedMigration C.Ts)) (b : Baseline C.Ts)
    (hA : parseHistory C lh = .ok ⟨A, none⟩)
    (hrl : read_legacy_baseline C lb = .ok (some b))
    (hw : writableBaseline C b) :
    read_history C ⟨none, some lh, some lb⟩ =
      .ok (⟨A, some (readBack C b)⟩,
        ⟨some (lh ++ [format_baseline_line C b]), none, none⟩) ∧
    read_history C ⟨some (lh ++ [format_baseline_line C b]), none, none⟩ =
      .ok (⟨A, some (readBack C b)⟩,
        ⟨some (lh ++ [format_baseline_line C b]), none, none⟩) := by
  have hparse : parseHistory C (lh ++ [format_baseline_line C b]) =
      .ok (⟨A, some (readBack C b)⟩ : HistoryState C.Ts) :=
    parseHistory_snoc_baseline C lh ⟨A, none⟩ b hA hw
  constructor
  · unfold read_history
    have hmig : migrate_legacy_files C ⟨none, some lh, some lb⟩ =
        .ok ⟨some (lh ++ [format_baseline_line C b]), none, none⟩ := by
      have hemp : (lh ++ [format_baseline_line C b]).isEmpty = false := by
        cases lh <;> rfl
      unfold migrate_legacy_files
      dsimp only
      rw [hrl]
      show (pure (some b) >>= fun ob => _) = _
      rw [pure_bind]
      dsimp only
      show (pure ((some lh).getD [] ++ [format_baseline_line C b]) >>= fun y => _) = _
      rw [pure_bind]
      simp only [Option.getD_some]
      rw [hemp]
      simp only [Bool.false_eq_true, if_false]
    show (migrate_legacy_files C ⟨none, some lh, some lb⟩ >>= fun dir => _) = _
    rw [hmig]
    show (pure (⟨some (lh ++ [format_baseline_line C b]), none, none⟩ : Dir) >>=
      fun dir => _) = _
    rw [pure_bind]
    dsimp only
    rw [hparse]
    show (pure (⟨A, some (readBack C b)⟩ : HistoryState C.Ts) >>= fun st => _) = _
    rw [pure_bind]
  · exact read_history_no_residual C _ _ _ rfl hparse (fun hc => rfl)

/-- C7 witness: the concrete upgrade produces the two applied records plus a
baseline whose two-line summary is flattened, removes both legacy files, and
re-reading is stable. -/
theorem read_history_legacy_upgrade_wit :
    read_history WitChrono ⟨none, some legacyHistC7, some legacyBaseC7⟩ =
      .ok (⟨[⟨"m1".toList, ()⟩, ⟨"m2".toList, ()⟩],
            some ⟨"1f710".toList, (), some "line1 line2".toList⟩⟩,
        ⟨some (legacyHistC7 ++
          [format_baseline_line WitChrono ⟨"1f710".toList, (), some "line1\nline2".toList⟩]),
         none, none⟩) ∧
    read_history WitChrono
        ⟨some (legacyHistC7 ++
          [format_baseline_line WitChrono ⟨"1f710".toList, (), some "line1\nline2".toList⟩]),
         none, none⟩ =
      .ok (⟨[⟨"m1".toList, ()⟩, ⟨"m2".toList, ()⟩],
            some ⟨"1f710".toList, (), some "line1 line2".toList⟩⟩,
        ⟨some (legacyHistC7 ++
          [format_baseline_line WitChrono ⟨"1f710".toList, (), some "line1\nline2".toList⟩]),
         none, none⟩) := by
  have h := read_history_legacy_upgrade WitChrono legacyHistC7 legacyBaseC7
    [⟨"m1".toList, ()⟩, ⟨"m2".toList, ()⟩]
    ⟨"1f710".toList, (), some "line1\nline2".toList⟩
    (by decide) (by decide)
    ⟨by decide, by decide, by decide, by decide, by decide, by decide, by decide⟩
  exact ⟨by rw [h.1]; rfl, by rw [h.2]; rfl⟩

/-- C7 counterexample: a legacy baseline file whose version token contains a
space satisfies the claim's hypotheses (a version, a created timestamp, a
multi-line literal summary), yet after the upgrade the serialized baseline
line's second token is not a timestamp, so the very read that performed the
upgrade fails with an error instead of returning the claimed HistoryState. -/
theorem read_history_legacy_upgrade_cex :
    read_history WitChrono ⟨none, some ["m1 T".toList],
        some ["version: a b".toList, "created: T".toList, "summary: |".toList,
          "  x".toList]⟩ =
      .error (.badBaselineTs ['b']) := by
  decide

/-! ### Claim C8: residual legacy baseline file -/

/-- C8 counterexample: when the current log already contains a baseline
record, `read` leaves the directory untouched — the legacy baseline file is
neither appended to the log nor deleted, contrary to the claim's "including
when the current log already contains a baseline record". -/
theorem read_history_residual_cex :
    read_history WitChrono dirC8 =
      .ok (⟨[], some ⟨['x'], (), none⟩⟩, dirC8) ∧
    dirC8.legacy_baseline = some ["version: v".toList, "created: T".toList] := by
  constructor
  · decide
  · rfl

/-- C8 (amended): with the current log present and parsing to `st`: when
`st` has no baseline and the legacy `.baseline` file decodes to `b`, `read`
appends `b` to the current log, deletes the legacy baseline file, leaves the
legacy applied log untouched, and returns `st` with baseline `b`; when the
log already contains a baseline record, `read` changes nothing. -/
theorem read_history_residual_baseline (C : Chrono) (dir : Dir) (h : List Str)
    (st : HistoryState C.Ts) (hh : dir.history = some h)
    (hst : parseHistory C h = .ok st) :
    (∀ lb b, st.baseline = none → dir.legacy_baseline = some lb →
      read_legacy_baseline C lb = .ok (some b) →
      read_history C dir = .ok ({ st with baseline := some b },
        { dir with history := some (h ++ [format_baseline_line C b]),
                   legacy_baseline := none })) ∧
    (∀ b0, st.baseline = some b0 → read_history C dir = .ok (st, dir)) := by
  constructor
  · intro lb b hb hlb hrl
    exact read_history_residual C dir h st lb b hh hst hb hlb hrl
  · intro b0 hb0
    exact read_history_no_residual C dir h st hh hst
      (fun hc => by rw [hb0] at hc; cases hc)

/-- C8 witness: a concrete residual legacy baseline is appended to a log
whose parse found no baseline, and in the counterexample directory (log
already carrying a baseline) nothing changes. -/
theorem read_history_residual_baseline_wit :
    read_history WitChrono ⟨some ["m1 T".toList], some ["z T".toList],
        some ["version: v".toList, "created: T".toList]⟩ =
      .ok (⟨[⟨"m1".toList, ()⟩], some ⟨['v'], (), none⟩⟩,
        ⟨some ["m1 T".toList ,
          format_baseline_line WitChrono ⟨['v'], (), none⟩],
         some ["z T".toList], none⟩) ∧
    read_history WitChrono dirC8 = .ok (⟨[], some ⟨['x'], (), none⟩⟩, dirC8) := by
  constructor
  · have h := (read_history_residual_baseline WitChrono
      ⟨some ["m1 T".toList], some ["z T".toList],
        some ["version: v".toList, "created: T".toList]⟩
      ["m1 T".toList] ⟨[⟨"m1".toList, ()⟩], none⟩ rfl (by decide)).1
      ["version: v".toList, "created: T".toList] ⟨['v'], (), none⟩
      rfl rfl (by decide)
    rw [h]
    rfl
  · have h := (read_history_residual_baseline WitChrono dirC8
      ["baseline: x T".toList] ⟨[], some ⟨['x'], (), none⟩⟩ rfl (by decide)).2
      ⟨['x'], (), none⟩ rfl
    rw [h]

/-! ### Claim C9: append then read round-trip -/

/-- C9 counterexample: appending a baseline whose version contains a space
yields a log line whose second token is not a timestamp, so the subsequent
read fails with an error instead of returning the claimed state — the
round-trip does not hold for every baseline. -/
theorem append_baseline_read_roundtrip_cex :
    read_history WitChrono (append_baseline WitChrono ⟨some [], none, none⟩
        ⟨"a b".toList, (), none⟩) = .error (.badBaselineTs ['b']) ∧
    read_history WitChrono (append_baseline WitChrono ⟨some [], none, none⟩
        ⟨"a b".toList, (), none⟩) ≠
      .ok (⟨[], some ⟨"a b".toList, (), none⟩⟩,
        append_baseline WitChrono ⟨some [], none, none⟩ ⟨"a b".toList, (), none⟩) := by
  constructor
  · decide
  · decide

/-- C9 (amended): appending a baseline `b` to an existing log and reading back yields
the unchanged applied list together with `b` whose summary newlines are
flattened to single spaces, superseding any baseline record already in the
log (the most recently written baseline wins). -/
theorem append_baseline_read_roundtrip (C : Chrono) (dir : Dir) (h : List Str)
    (st : HistoryState C.Ts) (b : Baseline C.Ts)
    (hh : dir.history = some h) (hst : parseHistory C h = .ok st)
    (hw : writableBaseline C b) :
    read_history C (append_baseline C dir b) =
      .ok (⟨st.applied, some (readBack C b)⟩, append_baseline C dir b) := by
  have hh' : (append_baseline C dir b).history =
      some (h ++ [format_baseline_line C b]) := by
    unfold append_baseline
    rw [hh]
    rfl
  have hst' : parseHistory C (h ++ [format_baseline_line C b]) =
      .ok (⟨st.applied, some (readBack C b)⟩ : HistoryState C.Ts) := by
    have := parseHistory_snoc_baseline C h st b hst hw
    simpa using this
  exact read_history_no_residual C _ _ _ hh' hst' (fun hc => by cases hc)

/-- C9 witness: appending a baseline with a multi-line summary to a log that
already holds an older baseline record; the read-back state keeps the
applied record, and the new baseline (summary flattened) wins. -/
theorem append_baseline_read_roundtrip_wit :
    read_history WitChrono (append_baseline WitChrono
        ⟨some ["baseline: old T".toList, "m1 T".toList], none, none⟩
        ⟨"new".toList, (), some "a\nb".toList⟩) =
      .ok (⟨[⟨"m1".toList, ()⟩], some ⟨"new".toList, (), some "a b".toList⟩⟩,
        append_baseline WitChrono
          ⟨some ["baseline: old T".toList, "m1 T".toList], none, none⟩
          ⟨"new".toList, (), some "a\nb".toList⟩) := by
  have h := append_baseline_read_roundtrip WitChrono
    ⟨some ["baseline: old T".toList, "m1 T".toList], none, none⟩
    ["baseline: old T".toList, "m1 T".toList]
    ⟨[⟨"m1".toList, ()⟩], some ⟨"old".toList, (), none⟩⟩
    ⟨"new".toList, (), some "a\nb".toList⟩
    rfl (by decide)
    ⟨by decide, by decide, by decide, by decide, by decide, by decide, by decide⟩
  rw [h]
  rfl

end AppMigrations
